import Mathlib

/-!
Shallow embedding of `src/sudoku_generator.py` (class `Sudoku`).

Modelling conventions:
* A cell is a pair of 1-based (row, column) naturals, as in the Python code.
* The mutable dictionaries `self.grid` and `self.values` are modelled as
  functions `Cell → Option Nat` and `Cell → List Nat`; the Python dicts have
  exactly the 81 cells as keys, so every update site guards on membership in
  `cells` where the source iterates over `self.cells`.
* Python `set` objects (`self.related_cells[c]`) are modelled as
  duplicate-free lists in first-occurrence order of the underlying
  concatenation `sum(self.cell_groups[c], [])`.  CPython iterates a set in a
  hash-determined order; every place below that only tests membership is
  insensitive to this choice, and the concrete evaluations performed in the
  theorems are noted where the order could matter.
* `random.sample(population, len(population))` results are modelled as
  explicit permutation parameters (`nums`, `ords`).
* `print(self)` calls in the source have no effect on the object state and
  are omitted.
-/

abbrev Cell := Nat × Nat

/-- Source `self.digits = [1, ..., 9]`. -/
def digits : List Nat := [1, 2, 3, 4, 5, 6, 7, 8, 9]

/-- Source `self.rows = self.digits[:]`. -/
def rows : List Nat := digits

/-- Source `self.columns = self.digits[:]`. -/
def columns : List Nat := digits

/-- Source `self.box_group_rows`. -/
def box_group_rows : List (List Nat) := [[1, 2, 3], [4, 5, 6], [7, 8, 9]]

/-- Source `self.box_group_cols`. -/
def box_group_cols : List (List Nat) := [[1, 2, 3], [4, 5, 6], [7, 8, 9]]

/-- Source `self.cells = list(product(self.rows, self.columns))` (row-major). -/
def cells : List Cell := rows.flatMap fun r => columns.map fun c => (r, c)

/-- Source `self.row_groups = [list(product([row], self.columns)) for row in self.rows]`. -/
def row_groups : List (List Cell) := rows.map fun r => columns.map fun c => (r, c)

/-- Source `self.column_groups = [list(product(self.rows, [col])) for col in self.columns]`. -/
def column_groups : List (List Cell) := columns.map fun c => rows.map fun r => (r, c)

/-- Source `self.box_groups`: for each row triple and column triple, the 9 cells of
the box, in `product(row_group, col_group)` order. -/
def box_groups : List (List Cell) :=
  box_group_rows.flatMap fun rg => box_group_cols.map fun cg =>
    rg.flatMap fun r => cg.map fun c => (r, c)

/-- Source `self.groupings = self.column_groups + self.row_groups + self.box_groups`. -/
def groupings : List (List Cell) := column_groups ++ row_groups ++ box_groups

/-- Source `self.cell_groups[c] = [g for g in self.groupings if c in g]`. -/
def cell_groups (c : Cell) : List (List Cell) :=
  groupings.filter fun g => g.contains c

/-- Source `self.related_cells[c] = set(sum(self.cell_groups[c], [])) - set([c])`,
modelled as the duplicate-free list of the concatenation, first occurrences
kept, with `c` itself removed. -/
def related_cells (c : Cell) : List Cell :=
  ((cell_groups c).flatten.filter fun x => x ≠ c).eraseDups

/-- One generation attempt's mutable state: `self.grid` and `self.values`. -/
structure SState where
  grid : Cell → Option Nat
  values : Cell → List Nat

/-- Point update of a finite-map-as-function. -/
def upd {α : Type} (f : Cell → α) (c : Cell) (v : α) : Cell → α :=
  fun x => if x = c then v else f x

/-- Source `Sudoku.validate` (the four assertions, as one boolean). -/
def validate : Bool :=
  cells.length == 81 && groupings.length == 27
    && (cells.all fun s => (cell_groups s).length == 3)
    && (cells.all fun s => (related_cells s).length == 20)

/-- Source `Sudoku._related_cell_values`: the assigned grid values of the related
cells (only membership in the result is ever used). -/
def related_cell_values (g : Cell → Option Nat) (c : Cell) : List Nat :=
  (related_cells c).filterMap g

/-- The candidate digits appended for a cell whose `grid` entry is falsy in
`_init_solution_values`: each digit not among the related cells' values. -/
def init_candidates (g : Cell → Option Nat) (c : Cell) : List Nat :=
  digits.filter fun n => !((related_cell_values g c).contains n)

/-- Source `Sudoku._init_solution_values`: for every cell of the grid, append the
assigned value (when truthy) or every non-excluded digit to `values[cell]`.
Only `grid` is read, so the per-cell updates are independent and the dict
mutation is modelled pointwise. -/
def init_solution_values (s : SState) : SState :=
  { s with values := fun c =>
      if cells.contains c then
        match s.grid c with
        | some v => if v == 0 then s.values c ++ init_candidates s.grid c
                    else s.values c ++ [v]
        | none => s.values c ++ init_candidates s.grid c
      else s.values c }

/-- Inner loop of `propagate_value_changes`: remove `v` from each related
cell's list (first occurrence, like Python `list.remove`), returning `false`
as soon as a list becomes empty. -/
def prop_related (vals : Cell → List Nat) (v : Nat) :
    List Cell → (Cell → List Nat) × Bool
  | [] => (vals, true)
  | r :: rs =>
    if (vals r).contains v then
      let l' := (vals r).erase v
      let vals' := upd vals r l'
      if l'.isEmpty then (vals', false)
      else prop_related vals' v rs
    else prop_related vals v rs

/-- Outer loop of `propagate_value_changes` over the cells, threading the
live state; a cell participates when its current list is a singleton. -/
def prop_go (vals : Cell → List Nat) : List Cell → (Cell → List Nat) × Bool
  | [] => (vals, true)
  | c :: rest =>
    match vals c with
    | [v] =>
      let (vals', ok) := prop_related vals v (related_cells c)
      if ok then prop_go vals' rest else (vals', false)
    | _ => prop_go vals rest

/-- Source `Sudoku.propagate_value_changes`. -/
def propagate_value_changes (vals : Cell → List Nat) : (Cell → List Nat) × Bool :=
  prop_go vals cells

/-- The `for rel_cell in related_cells` loop in `solve` for one candidate
value `v` of `cell`: when `v` is absent from some related cell's related
values, set `values[cell] = [v]`, run propagation (its boolean result is
discarded, exactly as in the source), set `grid[cell] = v`, flag a
modification, and keep scanning the remaining related cells (the `break` in
the source is commented out). -/
def scan_rel (s : SState) (cell : Cell) (v : Nat) :
    List Cell → SState × Bool
  | [] => (s, false)
  | r :: rs =>
    if (related_cell_values s.grid r).contains v then
      scan_rel s cell v rs
    else
      let vals1 := upd s.values cell [v]
      let vals2 := (propagate_value_changes vals1).1
      let s2 : SState := ⟨upd s.grid cell v, vals2⟩
      let (s3, _) := scan_rel s2 cell v rs
      (s3, true)

/-- The `for possible_value in cell_value_candidates` loop in `solve`.  The
iterated list is the snapshot captured when the scan of `cell` began: the
original Python list object is never mutated after capture (propagation
mutates only the freshly rebound singleton lists). -/
def scan_cands (s : SState) (cell : Cell) : List Nat → SState × Bool
  | [] => (s, false)
  | v :: vs =>
    let (s1, m1) := scan_rel s cell v (related_cells cell)
    let (s2, m2) := scan_cands s1 cell vs
    (s2, m1 || m2)

/-- One full pass of the `while modified_grid_values` loop body over all
cells: each cell whose current list has more than one element is scanned. -/
def pass_go (s : SState) (m : Bool) : List Cell → SState × Bool
  | [] => (s, m)
  | c :: rest =>
    if (s.values c).length > 1 then
      let (s', m') := scan_cands s c (s.values c)
      pass_go s' (m || m') rest
    else pass_go s m rest

/-- Total length of all candidate lists; each pass that reports a
modification strictly decreases it (a scanned cell goes from length ≥ 2 to
length ≤ 1 and every other change is an erasure or a replacement by a
singleton of a captured element), so `totalLen + 1` passes reach the
fixed point and the fuelled loop below computes exactly the Python
`while` loop. -/
def totalLen (vals : Cell → List Nat) : Nat :=
  (cells.map fun c => (vals c).length).sum

/-- The `while modified_grid_values` loop of `solve`, fuelled. -/
def solve_loop : Nat → SState → SState
  | 0, s => s
  | Nat.succ fuel, s =>
    let (s', m) := pass_go s false cells
    if m then solve_loop fuel s' else s'

/-- The final loop of `solve`: `True` iff every cell's candidate list has
exactly one element. -/
def final_check (s : SState) : Bool :=
  cells.all fun c => (s.values c).length == 1

/-- Source `Sudoku.solve`: initialise the candidate lists, iterate passes to the
fixed point, and report whether every list is a singleton. -/
def solve (s : SState) : SState × Bool :=
  let s0 := init_solution_values s
  let s1 := solve_loop (totalLen s0.values + 1) s0
  (s1, final_check s1)

/-- The `for cell in cells` loop of `_seed_puzzle_generation` for one digit:
walk the sampled cell order, assign `n` to the first unassigned cell, stop. -/
def place_digit (g : Cell → Option Nat) (n : Nat) : List Cell → (Cell → Option Nat)
  | [] => g
  | c :: rest =>
    match g c with
    | none => upd g c (some n)
    | some _ => place_digit g n rest

/-- The digit loop of `_seed_puzzle_generation`: one sampled cell order is
consumed per digit. -/
def seed_go (g : Cell → Option Nat) : List Nat → List (List Cell) → (Cell → Option Nat)
  | [], _ => g
  | _ :: _, [] => g
  | n :: ns, ord :: ords => seed_go (place_digit g n ord) ns ords

/-- Source `Sudoku._seed_puzzle_generation`, with the `sample` results passed in:
`nums` is the sampled digit order and `ords` the sampled cell order drawn
for each digit.  Always returns `True`. -/
def seed_puzzle_generation (g : Cell → Option Nat) (nums : List Nat)
    (ords : List (List Cell)) : (Cell → Option Nat) × Bool :=
  (seed_go g nums ords, true)

/-- Source `Sudoku._reset`: both dicts cleared. -/
def resetState : SState := ⟨fun _ => none, fun _ => []⟩

/-- The state `generate` hands to `solve`: the incoming state with the seeded
grid (no reset happens before seeding). -/
def generate_seeded (s : SState) (nums : List Nat) (ords : List (List Cell)) : SState :=
  { s with grid := (seed_puzzle_generation s.grid nums ords).1 }

/-- Source `Sudoku.generate`: seed, then solve; on failure reset and report
`False`, on success leave the solved state and report `True`. -/
def generate (s : SState) (nums : List Nat) (ords : List (List Cell)) : SState × Bool :=
  let (s2, ok) := solve (generate_seeded s nums ords)
  if ok then (s2, true) else (resetState, false)

/-- A fresh `Sudoku()` board: every grid entry `None`, every value list
empty. -/
def emptyState : SState := ⟨fun _ => none, fun _ => []⟩

/-- Boolean group-consistency of a grid snapshot: within every grouping the
assigned values are pairwise distinct. -/
def grid_consistent (g : Cell → Option Nat) : Bool :=
  groupings.all fun grp => decide (grp.filterMap g).Nodup

/-- Board state whose grid assigns the digit 1 to every cell and whose value
lists are all empty (the state of a fresh `Sudoku()` whose grid was filled
with 1s before calling `solve`). -/
def all1s : SState := ⟨fun _ => some 1, fun _ => []⟩

/-- Grid assigning 1 everywhere except cell (9, 9), which is unassigned. -/
def near1s_grid : Cell → Option Nat := fun c => if c = (9, 9) then none else some 1

/-- Board state for the `near1s_grid` grid with empty value lists. -/
def near1s : SState := ⟨near1s_grid, fun _ => []⟩

/-- A closed-form complete valid Sudoku assignment (the standard shifted
pattern): every row, column and box holds each digit exactly once. -/
def validVal : Cell → Nat := fun rc =>
  ((rc.2 - 1) + 3 * ((rc.1 - 1) % 3) + ((rc.1 - 1) / 3)) % 9 + 1

/-- Board state with the complete valid grid assigned and empty value
lists. -/
def fullValid : SState := ⟨fun c => some (validVal c), fun _ => []⟩

/-- Board state with the complete valid grid assigned and every value list
the matching singleton — the state a successful `solve` leaves behind. -/
def singletonValid : SState := ⟨fun c => some (validVal c), fun c => [validVal c]⟩

/-- Grid assigning digits 3..9 to cells (1,3)..(1,9) of the first row and
nothing else, so that cell (1,1) initialises to the candidate list [1, 2]. -/
def row7_grid : Cell → Option Nat := fun rc =>
  if rc.1 = 1 ∧ 3 ≤ rc.2 ∧ rc.2 ≤ 9 then some rc.2 else none

/-- Board state for `row7_grid` with empty value lists. -/
def row7 : SState := ⟨row7_grid, fun _ => []⟩

/-- Number of assigned cells of a grid. -/
def assignedCount (g : Cell → Option Nat) : Nat :=
  (cells.filter fun c => (g c).isSome).length

/-- Number of cells holding the digit `d`. -/
def digitCount (g : Cell → Option Nat) (d : Nat) : Nat :=
  (cells.filter fun c => g c == some d).length

/-- Nine sampled cell orders (each a permutation of `cells`) whose first
elements are the diagonal cells, used to instantiate the seeding theorems. -/
def diagOrds : List (List Cell) :=
  [((1,1) : Cell), (2,2), (3,3), (4,4), (5,5), (6,6), (7,7), (8,8), (9,9)].map
    fun t => t :: cells.erase t

/-- A grid with the single assignment (1,1) ↦ 5, used to instantiate the
seeding frame theorem. -/
def g10 : Cell → Option Nat := fun c => if c = (1, 1) then some 5 else none

/-- Board state whose value lists are all `[1]` and whose grid is empty,
used to instantiate the shrinking theorem. -/
def ones_values : SState := ⟨fun _ => none, fun _ => [1]⟩

set_option maxRecDepth 100000

/-- C5: Constructing a `Sudoku` always yields a topology for which every
assertion in `validate()` holds and `validate()` returns `True`: there are
exactly 81 cells and exactly 27 groups, every cell belongs to exactly 3
groups, and every cell's set of related cells has exactly 20 elements. -/
theorem c5_topology_validate :
    validate = true ∧ cells.length = 81 ∧ groupings.length = 27
      ∧ (∀ c ∈ cells, (cell_groups c).length = 3)
      ∧ (∀ c ∈ cells, (related_cells c).length = 20) := by decide

/-- C1, counterexample: on the board whose grid assigns 1 to every cell (and
whose value lists are empty), `solve()` returns `True`, yet the grid it
leaves behind violates the group-distinctness constraint — refuting the
claim that `solve() = True` implies the grid satisfies the Sudoku
constraint.  (No related-cell set is ever iterated in this run, so the
result does not depend on the modelled set-iteration order.) -/
theorem c1_counterexample :
    (solve all1s).2 = true ∧ grid_consistent (solve all1s).1.grid = false := by
  exact ⟨by rfl, by rfl⟩

/-- C1, amended: whenever `solve()` returns `True`, every one of the 81
cells has a candidate list containing exactly one digit; the grid mapping
left behind is, however, not guaranteed to satisfy the group-distinctness
constraint (it is never validated by `solve`). -/
theorem c1_solved_implies_singletons (s : SState) (h : (solve s).2 = true) :
    ∀ c ∈ cells, ((solve s).1.values c).length = 1 := by
  intro c hc
  have h' : final_check (solve s).1 = true := h
  unfold final_check at h'
  rw [List.all_eq_true] at h'
  simpa using h' c hc

/-- Witness for the amended C1 theorem at the concrete board `all1s`. -/
theorem c1_solved_implies_singletons_witness :
    (solve all1s).2 = true ∧ ∀ c ∈ cells, ((solve all1s).1.values c).length = 1 :=
  ⟨by rfl, c1_solved_implies_singletons all1s (by rfl)⟩

/-- C2 (code bug): the board `all1s` assigns the same digit 1 to the two
distinct cells (1,1) and (1,2) of the same row group, yet running the
solving pipeline on it returns `True` and leaves no cell's candidate list
empty — the conflicting board is silently accepted, contradicting the
specification's requirement that it be rejected with a contradiction.
(The solve loop never touches a cell whose list is already a singleton, so
the duplicated assignments are never cross-checked.) -/
theorem c2_conflicting_row_accepted :
    (∃ g ∈ row_groups, ((1, 1) : Cell) ∈ g ∧ ((1, 2) : Cell) ∈ g)
      ∧ all1s.grid (1, 1) = some 1 ∧ all1s.grid (1, 2) = some 1
      ∧ (solve all1s).2 = true
      ∧ (∀ c ∈ cells, (solve all1s).1.values c ≠ []) := by
  exact ⟨by decide, rfl, rfl, by rfl, by decide⟩

/-- C4 (code bug): on the board `near1s` (all cells 1 except the unassigned
(9,9)), the first propagation empties the candidate list of one peer, and
`propagate_value_changes` duly returns `False` — but `solve` discards that
result (line `self.propagate_value_changes()` ignores the return value) and
keeps assigning and eliminating: the final state contains at least two
emptied candidate lists, which is impossible if no elimination could follow
the first emptying (an erasure empties at most one list and an emptied list
of a non-scanned cell is never refilled). -/
theorem c4_mutation_after_contradiction :
    (solve near1s).2 = false
      ∧ 2 ≤ (cells.filter fun c => (solve near1s).1.values c = []).length := by
  exact ⟨by rfl, by decide⟩

/-- Bridge between the boolean `List.contains` used by the embedding and
propositional membership. -/
theorem contains_iff {α : Type} [BEq α] [LawfulBEq α] {l : List α} {a : α} :
    l.contains a = true ↔ a ∈ l := List.elem_iff

/-- Membership in `_related_cell_values`: a digit is listed exactly when some
related cell is assigned it. -/
theorem mem_related_cell_values {g : Cell → Option Nat} {c : Cell} {d : Nat} :
    d ∈ related_cell_values g c ↔ ∃ r ∈ related_cells c, g r = some d := by
  unfold related_cell_values
  exact List.mem_filterMap

/-- C3: if every cell's candidate list is empty before the call, then after
`_init_solution_values` every unassigned cell's candidate list holds exactly
the digits 1..9 not assigned to any of its related cells, and every assigned
cell's candidate list is exactly the singleton of its assigned value. -/
theorem c3_init_candidates (s : SState) (hv : ∀ c ∈ cells, s.values c = [])
    (c : Cell) (hc : c ∈ cells) :
    (s.grid c = none →
      ∀ d, d ∈ (init_solution_values s).values c ↔
        (d ∈ digits ∧ ∀ r ∈ related_cells c, s.grid r ≠ some d))
    ∧ (∀ v, s.grid c = some v → v ∈ digits →
      (init_solution_values s).values c = [v]) := by
  have hcc : cells.contains c = true := contains_iff.mpr hc
  have hval : s.values c = [] := hv c hc
  constructor
  · intro hg d
    simp only [init_solution_values, hcc, if_true, hg, hval, List.nil_append,
      init_candidates, List.mem_filter, Bool.not_eq_true']
    constructor
    · rintro ⟨hd, hnc⟩
      refine ⟨hd, fun r hr hgr => ?_⟩
      have : d ∈ related_cell_values s.grid c := mem_related_cell_values.mpr ⟨r, hr, hgr⟩
      rw [← contains_iff] at this
      rw [this] at hnc
      exact Bool.true_eq_false.mp hnc
    · rintro ⟨hd, hall⟩
      refine ⟨hd, ?_⟩
      cases hcon : (related_cell_values s.grid c).contains d with
      | false => rfl
      | true =>
        obtain ⟨r, hr, hgr⟩ := mem_related_cell_values.mp (contains_iff.mp hcon)
        exact absurd hgr (hall r hr)
  · intro v hg hd
    have hv0 : v ≠ 0 := by
      intro h; subst h; simp [digits] at hd
    simp only [init_solution_values, hcc, if_true, hg, hval, List.nil_append,
      beq_iff_eq]
    rw [if_neg hv0]

/-- Witness for C3 at the concrete board `near1s`, whose value lists are all
empty: instantiated at the unassigned cell (9,9) and at the assigned cell
(1,1). -/
theorem c3_init_candidates_witness :
    (∀ c ∈ cells, near1s.values c = [])
    ∧ (near1s.grid (9, 9) = none →
        ∀ d, d ∈ (init_solution_values near1s).values (9, 9) ↔
          (d ∈ digits ∧ ∀ r ∈ related_cells (9, 9), near1s.grid r ≠ some d))
    ∧ (∀ v, near1s.grid (1, 1) = some v → v ∈ digits →
        (init_solution_values near1s).values (1, 1) = [v]) :=
  ⟨fun _ _ => rfl,
   (c3_init_candidates near1s (fun _ _ => rfl) (9, 9) (by decide)).1,
   (c3_init_candidates near1s (fun _ _ => rfl) (1, 1) (by decide)).2⟩

/-- The related-cells relation is symmetric on the 81 grid cells. -/
theorem related_symm : ∀ c ∈ cells, ∀ r ∈ related_cells c, c ∈ related_cells r := by
  decide

/-- Every digit is nonzero (the Python truthiness test on a grid value). -/
theorem digits_ne_zero : ∀ v ∈ digits, v ≠ 0 := by decide

/-- If a candidate value is already among the related grid values of every
related cell, the scan of the related-cell list performs no action. -/
theorem scan_rel_skip_all (s : SState) (cell : Cell) (v : Nat) :
    ∀ l : List Cell, (∀ r ∈ l, (related_cell_values s.grid r).contains v = true) →
      scan_rel s cell v l = (s, false) := by
  intro l
  induction l with
  | nil => intro _; rfl
  | cons r rs ih =>
    intro h
    rw [scan_rel, h r (List.mem_cons_self r rs)]
    simp only [if_true]
    exact ih fun x hx => h x (List.mem_cons_of_mem r hx)

/-- If every candidate of the scanned cell is blocked at every related cell,
the whole candidate scan leaves the state unchanged and reports no
modification. -/
theorem scan_cands_noop (s : SState) (cell : Cell) :
    ∀ cs : List Nat,
      (∀ v ∈ cs, ∀ r ∈ related_cells cell,
        (related_cell_values s.grid r).contains v = true) →
      scan_cands s cell cs = (s, false) := by
  intro cs
  induction cs with
  | nil => intro _; rfl
  | cons v vs ih =>
    intro h
    rw [scan_cands, scan_rel_skip_all s cell v (related_cells cell)
      (h v (List.mem_cons_self v vs))]
    show (match scan_cands s cell vs with | (s2, m2) => (s2, false || m2)) = (s, false)
    rw [ih fun w hw => h w (List.mem_cons_of_mem v hw)]
    rfl

/-- A pass over cells in which every cell is fully blocked changes nothing
and reports no modification. -/
theorem pass_go_noop (s : SState) (m : Bool)
    (hb : ∀ c ∈ cells, ∀ v ∈ s.values c, ∀ r ∈ related_cells c,
        (related_cell_values s.grid r).contains v = true) :
    ∀ l : List Cell, (∀ c ∈ l, c ∈ cells) → pass_go s m l = (s, m) := by
  intro l
  induction l with
  | nil => intro _; rfl
  | cons c rest ih =>
    intro hl
    rw [pass_go]
    by_cases hlen : (s.values c).length > 1
    · rw [if_pos hlen, scan_cands_noop s c (s.values c)
        (hb c (hl c (List.mem_cons_self c rest)))]
      simp only [Bool.or_false]
      exact ih fun x hx => hl x (List.mem_cons_of_mem c hx)
    · rw [if_neg hlen]
      exact ih fun x hx => hl x (List.mem_cons_of_mem c hx)

/-- If a single pass is a no-op, the whole fuelled while-loop is a no-op. -/
theorem solve_loop_fixed (s : SState) (hp : pass_go s false cells = (s, false)) :
    ∀ fuel, solve_loop fuel s = s := by
  intro fuel
  cases fuel with
  | zero => rfl
  | succ n =>
    rw [solve_loop, hp]
    rfl

/-- Re-running `_init_solution_values` on a cell already holding the
singleton of its assigned value appends the value again. -/
theorem init_doubles (s : SState) (c : Cell) (hc : c ∈ cells) (v : Nat)
    (hg : s.grid c = some v) (hv : v ∈ digits) (hval : s.values c = [v]) :
    (init_solution_values s).values c = [v, v] := by
  have hcc : cells.contains c = true := contains_iff.mpr hc
  have hv0 : v ≠ 0 := digits_ne_zero v hv
  simp only [init_solution_values, hcc, if_true, hg, hval, beq_iff_eq]
  rw [if_neg hv0]
  rfl

/-- C8, amended: running `solve()` a second time on a fully assigned board
whose candidate lists are the matching singletons (the state a successful
`solve` leaves behind) is not a no-op: `_init_solution_values` re-appends
every assigned value, so the second call returns `False` and changes every
candidate list from `[v]` to `[v, v]`, while leaving the grid unchanged. -/
theorem c8_second_solve_not_noop (s : SState)
    (h : ∀ c ∈ cells, ∃ v ∈ digits, s.grid c = some v ∧ s.values c = [v]) :
    (solve s).2 = false
    ∧ (∀ c ∈ cells, ∃ v ∈ digits, s.grid c = some v ∧ (solve s).1.values c = [v, v])
    ∧ (∀ x, (solve s).1.grid x = s.grid x) := by
  set s0 := init_solution_values s with hs0
  have hvals0 : ∀ c ∈ cells, ∃ v ∈ digits, s0.grid c = some v ∧ s0.values c = [v, v] := by
    intro c hc
    obtain ⟨v, hv, hg, hval⟩ := h c hc
    exact ⟨v, hv, hg, init_doubles s c hc v hg hv hval⟩
  have hblocked : ∀ c ∈ cells, ∀ v ∈ s0.values c, ∀ r ∈ related_cells c,
      (related_cell_values s0.grid r).contains v = true := by
    intro c hc v hvmem r hr
    obtain ⟨w, hw, hg, hval⟩ := hvals0 c hc
    rw [hval] at hvmem
    have hvw : v = w := by
      simp only [List.mem_cons, List.not_mem_nil, or_false, or_self] at hvmem
      exact hvmem
    subst hvw
    exact contains_iff.mpr (mem_related_cell_values.mpr ⟨c, related_symm c hc r hr, hg⟩)
  have hpass : pass_go s0 false cells = (s0, false) :=
    pass_go_noop s0 false hblocked cells fun _ hc => hc
  have hloop : solve_loop (totalLen s0.values + 1) s0 = s0 := solve_loop_fixed s0 hpass _
  have hsolve : solve s = (s0, final_check s0) := by
    have hrfl : solve s
        = (solve_loop (totalLen s0.values + 1) s0,
           final_check (solve_loop (totalLen s0.values + 1) s0)) := rfl
    rw [hrfl, hloop]
  have h11 : ((1 : Nat), (1 : Nat)) ∈ cells := by decide
  obtain ⟨v, hv, hg, hval⟩ := hvals0 (1, 1) h11
  have hfc : final_check s0 = false := by
    cases hfc : final_check s0 with
    | false => rfl
    | true =>
      have := List.all_eq_true.mp hfc (1, 1) h11
      rw [hval] at this
      simp at this
  refine ⟨by rw [hsolve]; exact hfc, ?_, ?_⟩
  · intro c hc
    obtain ⟨w, hw, hgw, hvw⟩ := hvals0 c hc
    exact ⟨w, hw, hgw, by rw [hsolve]; exact hvw⟩
  · intro x
    rw [hsolve]
    rfl

/-- C8, counterexample: `solve()` returns `True` on the board `fullValid`
(a complete valid grid with empty value lists), but running `solve()` a
second time on the state it leaves behind returns `False` and changes the
candidate list of cell (1,1) — refuting the claim that a second run returns
`True` and leaves the state unchanged.  (No related-cell set is iterated in
either run, so the result does not depend on the modelled set-iteration
order.) -/
theorem c8_counterexample :
    (solve fullValid).2 = true
    ∧ (solve (solve fullValid).1).2 = false
    ∧ (solve (solve fullValid).1).1.values (1, 1) ≠ (solve fullValid).1.values (1, 1) := by
  exact ⟨by rfl, by rfl, by decide⟩

/-- Witness for the amended C8 theorem at the concrete state
`singletonValid`. -/
theorem c8_second_solve_not_noop_witness :
    (∀ c ∈ cells, ∃ v ∈ digits, singletonValid.grid c = some v ∧ singletonValid.values c = [v])
    ∧ (solve singletonValid).2 = false :=
  ⟨by decide, (c8_second_solve_not_noop singletonValid (by decide)).1⟩

/-- Membership in an updated map after erasing implies membership before. -/
theorem upd_erase_sub {vals : Cell → List Nat} {r : Cell} {v d : Nat} {c : Cell}
    (h : d ∈ upd vals r ((vals r).erase v) c) : d ∈ vals c := by
  unfold upd at h
  by_cases hcr : c = r
  · rw [if_pos hcr] at h
    rw [hcr]
    exact List.mem_of_mem_erase h
  · rwa [if_neg hcr] at h

/-- The inner propagation loop only erases: memberships are preserved
backwards. -/
theorem prop_related_subset (v d : Nat) (c : Cell) :
    ∀ (l : List Cell) (vals : Cell → List Nat),
      d ∈ (prop_related vals v l).1 c → d ∈ vals c := by
  intro l
  induction l with
  | nil => intro vals h; exact h
  | cons r rs ih =>
    intro vals h
    rw [prop_related] at h
    split at h
    · simp only at h
      split at h
      · exact upd_erase_sub h
      · exact upd_erase_sub (ih _ h)
    · exact ih _ h

/-- Procedure `propagate_value_changes` only erases: memberships are preserved
backwards. -/
theorem prop_go_subset (d : Nat) (c : Cell) :
    ∀ (l : List Cell) (vals : Cell → List Nat),
      d ∈ (prop_go vals l).1 c → d ∈ vals c := by
  intro l
  induction l with
  | nil => intro vals h; exact h
  | cons x rest ih =>
    intro vals h
    rw [prop_go] at h
    split at h
    case h_1 v heq =>
      rcases hpr : prop_related vals v (related_cells x) with ⟨vals', ok⟩
      rw [hpr] at h
      cases ok with
      | true =>
        simp only at h
        have h' := ih vals' h
        have : d ∈ (prop_related vals v (related_cells x)).1 c := by
          rw [hpr]; exact h'
        exact prop_related_subset v d c (related_cells x) vals this
      | false =>
        simp only at h
        have : d ∈ (prop_related vals v (related_cells x)).1 c := by
          rw [hpr]; exact h
        exact prop_related_subset v d c (related_cells x) vals this
    case h_2 =>
      exact ih vals h

/-- A related-cell scan step only ever installs the scanned candidate `v`
into the scanned cell's list; every other membership traces back. -/
theorem scan_rel_subset (cell : Cell) (v d : Nat) (c : Cell) :
    ∀ (l : List Cell) (s : SState),
      d ∈ (scan_rel s cell v l).1.values c →
      d ∈ s.values c ∨ (c = cell ∧ d = v) := by
  intro l
  induction l with
  | nil => intro s h; exact Or.inl h
  | cons r rs ih =>
    intro s h
    rw [scan_rel] at h
    split at h
    · exact ih s h
    · simp only at h
      rcases hsr : scan_rel ⟨upd s.grid cell v,
          (propagate_value_changes (upd s.values cell [v])).1⟩ cell v rs with ⟨s3, b⟩
      rw [hsr] at h
      have h3 := ih _ (by rw [hsr]; exact h)
      rcases h3 with h3 | h3
      · have h4 : d ∈ (propagate_value_changes (upd s.values cell [v])).1 c := h3
        have h5 := prop_go_subset d c cells (upd s.values cell [v]) h4
        unfold upd at h5
        by_cases hcc : c = cell
        · rw [if_pos hcc] at h5
          simp only [List.mem_singleton] at h5
          exact Or.inr ⟨hcc, h5⟩
        · rw [if_neg hcc] at h5
          exact Or.inl h5
      · exact Or.inr h3

/-- A full candidate scan of a cell only installs candidates from the
captured snapshot list; every other membership traces back. -/
theorem scan_cands_subset (cell : Cell) (d : Nat) (c : Cell) :
    ∀ (cs : List Nat) (s : SState),
      d ∈ (scan_cands s cell cs).1.values c →
      d ∈ s.values c ∨ (c = cell ∧ d ∈ cs) := by
  intro cs
  induction cs with
  | nil => intro s h; exact Or.inl h
  | cons v vs ih =>
    intro s h
    rw [scan_cands] at h
    rcases h1 : scan_rel s cell v (related_cells cell) with ⟨s1, m1⟩
    rw [h1] at h
    simp only at h
    rcases h2 : scan_cands s1 cell vs with ⟨s2, m2⟩
    rw [h2] at h
    have hh := ih s1 (by rw [h2]; exact h)
    rcases hh with hh | ⟨hc, hd⟩
    · rcases scan_rel_subset cell v d c (related_cells cell) s
        (by rw [h1]; exact hh) with h3 | ⟨hc, hd⟩
      · exact Or.inl h3
      · exact Or.inr ⟨hc, hd ▸ List.mem_cons_self v vs⟩
    · exact Or.inr ⟨hc, List.mem_cons_of_mem v hd⟩

/-- After a complete pass over the cells, every cell's candidate list is a
subset of what it was when the pass began. -/
theorem pass_go_subset (d : Nat) (c : Cell) :
    ∀ (l : List Cell) (s : SState) (m : Bool),
      d ∈ (pass_go s m l).1.values c → d ∈ s.values c := by
  intro l
  induction l with
  | nil => intro s m h; exact h
  | cons x rest ih =>
    intro s m h
    rw [pass_go] at h
    split at h
    · rcases hsc : scan_cands s x (s.values x) with ⟨s', m'⟩
      rw [hsc] at h
      have h' := ih s' _ h
      rcases scan_cands_subset x d c (s.values x) s
        (by rw [hsc]; exact h') with h1 | ⟨hc, hd⟩
      · exact h1
      · rw [hc]; exact hd
    · exact ih s m h

/-- The fuelled while-loop only shrinks candidate lists. -/
theorem solve_loop_subset (d : Nat) (c : Cell) :
    ∀ (fuel : Nat) (s : SState),
      d ∈ (solve_loop fuel s).values c → d ∈ s.values c := by
  intro fuel
  induction fuel with
  | zero => intro s h; exact h
  | succ n ih =>
    intro s h
    rw [solve_loop] at h
    rcases hp : pass_go s false cells with ⟨s', m⟩
    rw [hp] at h
    cases m with
    | false =>
      simp only [Bool.false_eq_true, if_false] at h
      exact pass_go_subset d c cells s false (by rw [hp]; exact h)
    | true =>
      simp only [if_true] at h
      exact pass_go_subset d c cells s false (by rw [hp]; exact ih s' h)

/-- C9, counterexample: starting from the concrete board `row7` (row 1 holds
3..9 in cells (1,3)..(1,9)), cell (1,1) initialises to the candidate list
[1, 2] and is the first cell scanned by the solve loop; the scan's first
step replaces the list by [1], and its second step replaces the current
list [1] by [2] — a mutation that installs a digit (2) not present in the
list it replaces, refuting the claim that every step replaces a list by a
singleton of an element it already contains (a subset).  The last conjunct
records that the full candidate scan of the pass is exactly these two
steps. -/
theorem c9_counterexample :
    (init_solution_values row7).values (1, 1) = [1, 2]
    ∧ (scan_rel (init_solution_values row7) (1, 1) 1
        (related_cells (1, 1))).1.values (1, 1) = [1]
    ∧ (scan_rel (scan_rel (init_solution_values row7) (1, 1) 1
        (related_cells (1, 1))).1 (1, 1) 2
        (related_cells (1, 1))).1.values (1, 1) = [2]
    ∧ (2 : Nat) ∉ (scan_rel (init_solution_values row7) (1, 1) 1
        (related_cells (1, 1))).1.values (1, 1)
    ∧ (scan_cands (init_solution_values row7) (1, 1)
        ((init_solution_values row7).values (1, 1))).1.values (1, 1) = [2] := by
  exact ⟨by rfl, by rfl, by rfl, by decide, by rfl⟩

/-- C9, amended: at the granularity of whole constructs the candidate state
only shrinks — a completed `propagate_value_changes` call, a completed pass
of the solve loop, and the whole while-loop each leave every cell's
candidate set a subset of what it was before (every digit present after was
present before); an individual replacement step inside a cell's scan may
however briefly install a candidate that is no longer in the cell's current
list, though always one drawn from the list captured when the scan began. -/
theorem c9_shrinking (vals : Cell → List Nat) (s : SState) (fuel : Nat)
    (d : Nat) (c : Cell) :
    (d ∈ (propagate_value_changes vals).1 c → d ∈ vals c)
    ∧ (d ∈ (pass_go s false cells).1.values c → d ∈ s.values c)
    ∧ (d ∈ (solve_loop fuel s).values c → d ∈ s.values c) :=
  ⟨fun h => prop_go_subset d c cells vals h,
   fun h => pass_go_subset d c cells s false h,
   fun h => solve_loop_subset d c fuel s h⟩

/-- Witness for the amended C9 theorem at the concrete state
`ones_values`. -/
theorem c9_shrinking_witness :
    ((1 : Nat) ∈ (propagate_value_changes ones_values.values).1 (1, 1)
      ∧ (1 : Nat) ∈ ones_values.values (1, 1))
    ∧ ((1 : Nat) ∈ (pass_go ones_values false cells).1.values (1, 1)
      ∧ (1 : Nat) ∈ ones_values.values (1, 1))
    ∧ ((1 : Nat) ∈ (solve_loop 1 ones_values).values (1, 1)
      ∧ (1 : Nat) ∈ ones_values.values (1, 1)) :=
  ⟨⟨by decide, (c9_shrinking ones_values.values ones_values 1 1 (1, 1)).1 (by decide)⟩,
   ⟨by decide, (c9_shrinking ones_values.values ones_values 1 1 (1, 1)).2.1 (by decide)⟩,
   ⟨by decide, (c9_shrinking ones_values.values ones_values 1 1 (1, 1)).2.2 (by decide)⟩⟩

/-- The 81 grid cells are pairwise distinct. -/
theorem cells_nodup : cells.Nodup := by decide

/-- The nine digits are pairwise distinct. -/
theorem digits_nodup : digits.Nodup := by decide

/-- Procedure `place_digit` either assigns `n` to some unassigned cell of the sampled
order, or leaves the grid unchanged because the order holds no unassigned
cell. -/
theorem place_digit_eq (g : Cell → Option Nat) (n : Nat) :
    ∀ ord : List Cell,
      (∃ c ∈ ord, g c = none ∧ place_digit g n ord = upd g c (some n))
      ∨ ((∀ c ∈ ord, g c ≠ none) ∧ place_digit g n ord = g) := by
  intro ord
  induction ord with
  | nil => exact Or.inr ⟨fun c hc => absurd hc (List.not_mem_nil c), rfl⟩
  | cons a t ih =>
    rcases hga : g a with _ | w
    · exact Or.inl ⟨a, List.mem_cons_self a t, hga, by rw [place_digit, hga]⟩
    · have hred : place_digit g n (a :: t) = place_digit g n t := by
        rw [place_digit, hga]
      rcases ih with ⟨c', hc', hg', heq⟩ | ⟨hall, heq⟩
      · exact Or.inl ⟨c', List.mem_cons_of_mem a hc', hg', by rw [hred]; exact heq⟩
      · refine Or.inr ⟨?_, by rw [hred]; exact heq⟩
        intro x hx
        rcases List.mem_cons.mp hx with h1 | h1
        · rw [h1, hga]; exact fun hcon => Option.noConfusion hcon
        · exact hall x h1

/-- Replacing a `false` point of a boolean predicate by `true` at a list
member increases the filter count by exactly one (on a duplicate-free
list). -/
theorem length_filter_step : ∀ (l : List Cell), l.Nodup → ∀ (c : Cell), c ∈ l →
    ∀ (p q : Cell → Bool), (∀ x ∈ l, x ≠ c → p x = q x) → p c = false → q c = true →
    (l.filter q).length = (l.filter p).length + 1 := by
  intro l
  induction l with
  | nil => intro _ c hc; cases hc
  | cons a t ih =>
    intro hnd c hc p q hagree hpc hqc
    have hand := List.nodup_cons.mp hnd
    rcases List.mem_cons.mp hc with rfl | hct
    · rw [List.filter_cons, List.filter_cons, hpc, hqc]
      have heq : t.filter p = t.filter q :=
        List.filter_congr fun x hx => hagree x (List.mem_cons_of_mem _ hx)
          fun hxc => hand.1 (hxc ▸ hx)
      simp only [if_true, if_false, Bool.false_eq_true, Bool.true_eq_false, heq,
        List.length_cons]
    · have hac : a ≠ c := fun h => hand.1 (h ▸ hct)
      have ha : p a = q a := hagree a (List.mem_cons_self a t) hac
      have hrec := ih hand.2 c hct p q
        (fun x hx hxc => hagree x (List.mem_cons_of_mem a hx) hxc) hpc hqc
      rw [List.filter_cons, List.filter_cons, ← ha]
      cases hpa : p a
      · simp only [Bool.false_eq_true, if_false]
        exact hrec
      · simp only [if_true, List.length_cons, hrec]

/-- Pointwise equal predicates give equal filter counts. -/
theorem length_filter_congr {l : List Cell} {p q : Cell → Bool}
    (hagree : ∀ x ∈ l, p x = q x) : (l.filter q).length = (l.filter p).length := by
  rw [List.filter_congr hagree]

/-- Assigning a digit to an unassigned grid cell raises the assigned-cell
count by one. -/
theorem assignedCount_upd_new {g : Cell → Option Nat} {c : Cell} (hc : c ∈ cells)
    (hg : g c = none) (n : Nat) :
    assignedCount (upd g c (some n)) = assignedCount g + 1 := by
  unfold assignedCount
  apply length_filter_step cells cells_nodup c hc
  · intro x _ hxc
    unfold upd
    rw [if_neg hxc]
  · rw [hg]; rfl
  · unfold upd; rw [if_pos rfl]; rfl

/-- Updating a non-cell coordinate leaves the assigned-cell count
unchanged. -/
theorem assignedCount_upd_out {g : Cell → Option Nat} {c : Cell} (hc : c ∉ cells)
    (v : Option Nat) : assignedCount (upd g c v) = assignedCount g := by
  unfold assignedCount
  apply length_filter_congr
  intro x hx
  unfold upd
  rw [if_neg fun h : x = c => hc (h ▸ hx)]

/-- Assigning `n` to an unassigned cell raises the count of cells holding
`n` by one. -/
theorem digitCount_upd_same {g : Cell → Option Nat} {c : Cell} (hc : c ∈ cells)
    (hg : g c = none) (n : Nat) :
    digitCount (upd g c (some n)) n = digitCount g n + 1 := by
  unfold digitCount
  apply length_filter_step cells cells_nodup c hc
  · intro x _ hxc
    unfold upd
    rw [if_neg hxc]
  · rw [hg]; rfl
  · unfold upd; rw [if_pos rfl]; simp

/-- Assigning `n` to an unassigned cell leaves the count of any other digit
unchanged. -/
theorem digitCount_upd_other {g : Cell → Option Nat} {c : Cell} (hg : g c = none)
    {n d : Nat} (hnd : d ≠ n) :
    digitCount (upd g c (some n)) d = digitCount g d := by
  unfold digitCount
  apply length_filter_congr
  intro x _
  unfold upd
  by_cases hxc : x = c
  · rw [if_pos hxc, hxc, hg]
    have h2 : ((some n : Option Nat) == some d) = false := by
      simp [Ne.symm hnd]
    rw [h2]; rfl
  · rw [if_neg hxc]

/-- A grid with fewer than 81 assigned cells has an unassigned cell. -/
theorem exists_none_of_count_lt {g : Cell → Option Nat} (h : assignedCount g < 81) :
    ∃ c ∈ cells, g c = none := by
  by_contra hcon
  push_neg at hcon
  have hall : ∀ c ∈ cells, ((g c).isSome) = true := by
    intro c hc
    cases hgc : g c with
    | none => exact absurd hgc (hcon c hc)
    | some v => rfl
  have hfe : cells.filter (fun c => (g c).isSome) = cells := List.filter_eq_self.mpr hall
  unfold assignedCount at h
  rw [hfe] at h
  have hlen : cells.length = 81 := rfl
  rw [hlen] at h
  exact Nat.lt_irrefl _ h

/-- Seeding never overwrites an assigned cell (single-digit step). -/
theorem place_digit_preserve {g : Cell → Option Nat} {n : Nat} {ord : List Cell}
    {c : Cell} {v : Nat} (h : g c = some v) : place_digit g n ord c = some v := by
  induction ord with
  | nil => exact h
  | cons a t ih =>
    rcases hga : g a with _ | w
    · rw [place_digit, hga]
      show upd g a (some n) c = some v
      unfold upd
      by_cases hca : c = a
      · rw [hca, hga] at h; exact Option.noConfusion h
      · rw [if_neg hca]; exact h
    · rw [place_digit, hga]
      exact ih

/-- Seeding never overwrites an assigned cell. -/
theorem seed_go_preserve : ∀ (nums : List Nat) (ords : List (List Cell))
    (g : Cell → Option Nat) (c : Cell) (v : Nat),
    g c = some v → seed_go g nums ords c = some v := by
  intro nums
  induction nums with
  | nil => intro ords g c v h; exact h
  | cons n ns ih =>
    intro ords g c v h
    cases ords with
    | nil => exact h
    | cons ord ords' =>
      show seed_go (place_digit g n ord) ns ords' c = some v
      exact ih ords' _ c v (place_digit_preserve h)

/-- A cell changed by a single seeding step was unassigned and now holds the
placed digit. -/
theorem place_digit_changed {g : Cell → Option Nat} {n : Nat} {ord : List Cell}
    {c : Cell} (h : place_digit g n ord c ≠ g c) :
    g c = none ∧ place_digit g n ord c = some n := by
  induction ord with
  | nil => exact absurd rfl h
  | cons a t ih =>
    rcases hga : g a with _ | w
    · have hred : place_digit g n (a :: t) = upd g a (some n) := by
        rw [place_digit, hga]
      rw [hred] at h ⊢
      unfold upd at h ⊢
      by_cases hca : c = a
      · rw [if_pos hca] at h ⊢
        exact ⟨by rw [hca]; exact hga, rfl⟩
      · rw [if_neg hca] at h
        exact absurd rfl h
    · have hred : place_digit g n (a :: t) = place_digit g n t := by
        rw [place_digit, hga]
      rw [hred] at h ⊢
      exact ih h

/-- A cell changed by seeding was unassigned and now holds one of the seeded
digits. -/
theorem seed_go_changed : ∀ (nums : List Nat) (ords : List (List Cell))
    (g : Cell → Option Nat) (c : Cell),
    seed_go g nums ords c ≠ g c →
    g c = none ∧ ∃ n ∈ nums, seed_go g nums ords c = some n := by
  intro nums
  induction nums with
  | nil => intro ords g c h; exact absurd rfl h
  | cons n ns ih =>
    intro ords g c h
    cases ords with
    | nil => exact absurd rfl h
    | cons ord ords' =>
      have hred : seed_go g (n :: ns) (ord :: ords')
          = seed_go (place_digit g n ord) ns ords' := rfl
      rw [hred] at h ⊢
      by_cases hpc : place_digit g n ord c = g c
      · have h2 : seed_go (place_digit g n ord) ns ords' c ≠ place_digit g n ord c := by
          rw [hpc]; exact h
        obtain ⟨hnone, m, hm, heq⟩ := ih ords' _ c h2
        rw [hpc] at hnone
        exact ⟨hnone, m, List.mem_cons_of_mem n hm, heq⟩
      · obtain ⟨hnone, hplace⟩ := place_digit_changed hpc
        have hseed : seed_go (place_digit g n ord) ns ords' c = some n :=
          seed_go_preserve ns ords' _ c n hplace
        exact ⟨hnone, n, List.mem_cons_self n ns, hseed⟩

/-- A single seeding step assigns at most one new cell. -/
theorem place_digit_count_le (g : Cell → Option Nat) (n : Nat) (ord : List Cell) :
    assignedCount (place_digit g n ord) ≤ assignedCount g + 1 := by
  rcases place_digit_eq g n ord with ⟨c, _, hgc, heq⟩ | ⟨_, heq⟩
  · rw [heq]
    by_cases hcin : c ∈ cells
    · rw [assignedCount_upd_new hcin hgc n]
    · rw [assignedCount_upd_out hcin]
      omega
  · rw [heq]; omega

/-- Seeding assigns at most one cell per seeded digit. -/
theorem seed_go_count_le : ∀ (nums : List Nat) (ords : List (List Cell))
    (g : Cell → Option Nat),
    assignedCount (seed_go g nums ords) ≤ assignedCount g + nums.length := by
  intro nums
  induction nums with
  | nil => intro ords g; exact Nat.le_add_right _ _
  | cons n ns ih =>
    intro ords g
    cases ords with
    | nil =>
      show assignedCount g ≤ assignedCount g + (n :: ns).length
      exact Nat.le_add_right _ _
    | cons ord ords' =>
      show assignedCount (seed_go (place_digit g n ord) ns ords')
        ≤ assignedCount g + (n :: ns).length
      have h1 := ih ords' (place_digit g n ord)
      have h2 := place_digit_count_le g n ord
      simp only [List.length_cons]
      omega

/-- Exact accounting of a seeding run whose digit list is duplicate-free,
with one full cell permutation sampled per digit and enough room on the
grid: every digit is placed exactly once on a previously unassigned cell. -/
theorem seed_go_exact : ∀ (nums : List Nat) (ords : List (List Cell))
    (g : Cell → Option Nat),
    nums.Nodup → ords.length = nums.length → (∀ o ∈ ords, List.Perm o cells) →
    assignedCount g + nums.length ≤ 81 →
    assignedCount (seed_go g nums ords) = assignedCount g + nums.length
    ∧ (∀ d ∈ nums, digitCount (seed_go g nums ords) d = digitCount g d + 1)
    ∧ (∀ d, d ∉ nums → digitCount (seed_go g nums ords) d = digitCount g d) := by
  intro nums
  induction nums with
  | nil =>
    intro ords g _ _ _ _
    exact ⟨rfl, fun d hd => absurd hd (List.not_mem_nil d), fun d _ => rfl⟩
  | cons n ns ih =>
    intro ords g hnodup hlen hperm hroom
    cases ords with
    | nil => exact absurd hlen.symm (by simp)
    | cons ord ords' =>
      have hnd := List.nodup_cons.mp hnodup
      have hlen' : ords'.length = ns.length := by
        simpa using hlen
      have hperm' : ∀ o ∈ ords', List.Perm o cells :=
        fun o ho => hperm o (List.mem_cons_of_mem ord ho)
      have hpo : List.Perm ord cells := hperm ord (List.mem_cons_self ord ords')
      have hlt : assignedCount g < 81 := by
        simp only [List.length_cons] at hroom
        omega
      obtain ⟨ce, hce, hge⟩ := exists_none_of_count_lt hlt
      have hmem_ord : ce ∈ ord := hpo.mem_iff.mpr hce
      rcases place_digit_eq g n ord with ⟨c', hc', hgc', heq⟩ | ⟨hall, _⟩
      swap
      · exact absurd hge (hall ce hmem_ord)
      have hc'cells : c' ∈ cells := hpo.mem_iff.mp hc'
      have hred : seed_go g (n :: ns) (ord :: ords')
          = seed_go (place_digit g n ord) ns ords' := rfl
      have hcount1 : assignedCount (place_digit g n ord) = assignedCount g + 1 := by
        rw [heq]; exact assignedCount_upd_new hc'cells hgc' n
      have hroom' : assignedCount (place_digit g n ord) + ns.length ≤ 81 := by
        rw [hcount1]
        simp only [List.length_cons] at hroom
        omega
      obtain ⟨ihc, ihd, iho⟩ := ih ords' (place_digit g n ord) hnd.2 hlen' hperm' hroom'
      refine ⟨?_, ?_, ?_⟩
      · rw [hred, ihc, hcount1]
        simp only [List.length_cons]
        omega
      · intro d hd
        rcases List.mem_cons.mp hd with rfl | hdns
        · rw [hred, iho d hnd.1, heq, digitCount_upd_same hc'cells hgc']
        · have hdn : d ≠ n := fun hcon => hnd.1 (hcon ▸ hdns)
          rw [hred, ihd d hdns, heq, digitCount_upd_other hgc' hdn]
      · intro d hd
        have hdn : d ≠ n := fun hcon => hd (hcon ▸ List.mem_cons_self n ns)
        have hdns : d ∉ ns := fun hcon => hd (List.mem_cons_of_mem n hcon)
        rw [hred, iho d hdns, heq, digitCount_upd_other hgc' hdn]

/-- C6: starting from a completely empty grid, `_seed_puzzle_generation`
(with its `sample` calls modelled as a permutation of the digits and one
permutation of the cells per digit) assigns each of the 9 digits exactly
once: afterwards exactly 9 cells hold a value, each digit 1..9 occurs on
exactly one cell, every assigned value is one of the digits, and the
function returns `True`. -/
theorem c6_seed_from_empty (nums : List Nat) (ords : List (List Cell))
    (hn : List.Perm nums digits) (ho : ords.length = nums.length)
    (hop : ∀ o ∈ ords, List.Perm o cells) :
    assignedCount (seed_go (fun _ => none) nums ords) = 9
    ∧ (∀ d ∈ digits, digitCount (seed_go (fun _ => none) nums ords) d = 1)
    ∧ (∀ c v, seed_go (fun _ => none) nums ords c = some v → v ∈ digits)
    ∧ (seed_puzzle_generation (fun _ => none) nums ords).2 = true := by
  have hnodup : nums.Nodup := hn.nodup_iff.mpr digits_nodup
  have hlen : nums.length = 9 := by rw [hn.length_eq]; rfl
  have hcount0 : assignedCount (fun _ => none) = 0 := rfl
  obtain ⟨hcnt, hdig, _⟩ := seed_go_exact nums ords (fun _ => none) hnodup ho hop
    (by rw [hcount0, hlen]; omega)
  refine ⟨by rw [hcnt, hcount0, hlen], ?_, ?_, rfl⟩
  · intro d hd
    have : digitCount (fun _ => none) d = 0 := rfl
    rw [hdig d (hn.mem_iff.mpr hd), this]
  · intro c v h
    have hne : seed_go (fun _ => none) nums ords c ≠ (fun _ => none) c := by
      intro hcon
      rw [h] at hcon
      exact Option.noConfusion hcon
    obtain ⟨_, m, hm, heq⟩ := seed_go_changed nums ords (fun _ => none) c hne
    rw [h] at heq
    have : v = m := Option.some.inj heq
    rw [this]
    exact hn.mem_iff.mp hm

/-- Witness for C6 at the identity digit order and the diagonal-first cell
permutations. -/
theorem c6_seed_from_empty_witness :
    List.Perm digits digits ∧ diagOrds.length = digits.length
    ∧ (∀ o ∈ diagOrds, List.Perm o cells)
    ∧ assignedCount (seed_go (fun _ => none) digits diagOrds) = 9 :=
  ⟨List.Perm.refl digits, by decide, by decide,
   (c6_seed_from_empty digits diagOrds (List.Perm.refl digits) (by decide) (by decide)).1⟩

/-- C10: `_seed_puzzle_generation` never overwrites an occupied cell — every
cell assigned before the call holds the same digit afterwards, a changed
cell was previously empty and now holds one of the seeded digits, and at
most one cell is newly assigned per seeded digit.  Consequently, `generate`
(which performs no reset before seeding) seeds on top of whatever
assignments its state already carries. -/
theorem c10_seed_frame (g : Cell → Option Nat) (nums : List Nat)
    (ords : List (List Cell)) :
    (∀ c v, g c = some v → seed_go g nums ords c = some v)
    ∧ (∀ c, seed_go g nums ords c ≠ g c →
        g c = none ∧ ∃ n ∈ nums, seed_go g nums ords c = some n)
    ∧ assignedCount (seed_go g nums ords) ≤ assignedCount g + nums.length
    ∧ (∀ s : SState, s.grid = g →
        ∀ c v, g c = some v → (generate_seeded s nums ords).grid c = some v) := by
  refine ⟨fun c v h => seed_go_preserve nums ords g c v h,
          fun c h => seed_go_changed nums ords g c h,
          seed_go_count_le nums ords g, ?_⟩
  intro s hs c v h
  show seed_go s.grid nums ords c = some v
  rw [hs]
  exact seed_go_preserve nums ords g c v h

/-- Witness for C10: a grid holding 5 at (1,1) keeps that assignment through
a seeding step that places the digit 7. -/
theorem c10_seed_frame_witness :
    g10 (1, 1) = some 5
    ∧ seed_go g10 [7] [[(1, 1), (1, 2)]] (1, 1) = some 5 :=
  ⟨by decide, (c10_seed_frame g10 [7] [[(1, 1), (1, 2)]]).1 (1, 1) 5 (by decide)⟩
